import Mathlib

/-!
Verification development for the `bangumi-parser` repository.

The development shallowly embeds `bangumi_parser/core.py`.  Python strings are
modelled as `List Char` (code-point lists), Python dicts as insertion-ordered
association lists, and compiled regular expressions as records holding the
operations the source actually uses (`re.search` with one capturing group,
`re.sub`, `re.findall`, `re.match`).  Python's `re.sub` semantics — replace
every non-overlapping match, scanning left to right — is implemented once,
generically, on top of a pattern's span search.
-/

set_option maxRecDepth 10000

/-- Python strings are modelled as lists of characters (code points). -/
abbrev Str := List Char

/-! ### Basic string helpers (models of `os.path` / `str` operations) -/

/-- `os.path.basename` on POSIX: the part of the path after the last `'/'`. -/
def basename (s : Str) : Str :=
  ((s.reverse).takeWhile (fun c => c ≠ '/')).reverse

/-- Index just past the last `'/'` of the path (0 when there is none);
this is `p.rfind('/') + 1` in `posixpath.split`. -/
def lastSepIdx (s : Str) : Nat := s.length - (basename s).length

/-- `os.path.dirname` on POSIX: everything before the last `'/'`, with
trailing slashes stripped unless the prefix consists only of slashes. -/
def dirname (s : Str) : Str :=
  let head := s.take (lastSepIdx s)
  if head ≠ [] ∧ head.any (fun c => c ≠ '/') then
    (head.reverse.dropWhile (fun c => c = '/')).reverse
  else head

/-- Python `str.split(sep)` for a single-character separator: keeps empty
pieces, as Python does. -/
def splitOnChar (sep : Char) : Str → List Str
  | [] => [[]]
  | c :: rest =>
    let r := splitOnChar sep rest
    if c = sep then [] :: r
    else
      match r with
      | [] => [[c]]
      | piece :: pieces => (c :: piece) :: pieces

/-- ASCII whitespace, as recognised by Python `str.split()` / `str.strip()`
on the ASCII range. -/
def isSpaceChar (c : Char) : Bool :=
  c = ' ' ∨ c = '\t' ∨ c = '\n' ∨ c = '\r' ∨ c = '\x0b' ∨ c = '\x0c'

/-- Python `str.split()` with no argument: split on runs of whitespace,
discarding empty pieces. -/
def splitWs : Str → List Str :=
  go []
where
  /-- accumulator holds the current word reversed -/
  go (acc : Str) : Str → List Str
  | [] => if acc = [] then [] else [acc.reverse]
  | c :: rest =>
    if isSpaceChar c then
      if acc = [] then go [] rest else acc.reverse :: go [] rest
    else go (c :: acc) rest

/-- Python `str.strip()`: drop leading and trailing whitespace. -/
def stripStr (s : Str) : Str :=
  ((s.dropWhile isSpaceChar).reverse.dropWhile isSpaceChar).reverse

/-- Does `pre` occur at the very start of `s`?  (Python `str.startswith`.) -/
def startsWith : Str → Str → Bool
  | [], _ => true
  | _ :: _, [] => false
  | p :: ps, c :: cs => p = c && startsWith ps cs

/-- Python's `in` operator on strings: substring containment (case-sensitive,
exact code points). -/
def containsSub (needle : Str) (hay : Str) : Bool :=
  match hay with
  | [] => startsWith needle []
  | _ :: rest => startsWith needle hay || containsSub needle rest

/-- Python `str.replace(needle, repl)` for a non-empty needle: replace every
non-overlapping occurrence, scanning left to right.  The fuel argument is the
length of the subject, which suffices because each replacement consumes at
least one subject character. -/
def replaceAllAux (needle repl : Str) : Nat → Str → Str
  | 0, s => s
  | _ + 1, [] => []
  | fuel + 1, c :: rest =>
    if needle ≠ [] ∧ startsWith needle (c :: rest) then
      repl ++ replaceAllAux needle repl fuel ((c :: rest).drop needle.length)
    else c :: replaceAllAux needle repl fuel rest

/-- Python `str.replace` (all occurrences). -/
def replaceAll (s needle repl : Str) : Str :=
  replaceAllAux needle repl s.length s

/-- A character matched by the character class `[-_\s]` of
`re.sub(r'[-_\s]+', ' ', …)` in `extract_series_name_from_path`. -/
def isSepChar (c : Char) : Bool :=
  c = '-' ∨ c = '_' ∨ isSpaceChar c

/-- `re.sub(r'[-_\s]+', ' ', s)`: collapse every run of separator characters
into a single space.  The flag records whether we are inside a run. -/
def collapseSepAux : Str → Bool → Str
  | [], _ => []
  | c :: rest, inRun =>
    if isSepChar c then
      if inRun then collapseSepAux rest true else ' ' :: collapseSepAux rest true
    else c :: collapseSepAux rest false

/-- `re.sub(r'[-_\s]+', ' ', s)` as used on candidate series names. -/
def collapseSep (s : Str) : Str := collapseSepAux s false

/-! ### Decimal formatting: `f"{n:02d}"` and the synthetic `未知集NN` keys -/

/-- Decimal digit characters of `n`, most significant first (empty for 0).
Fuel-based so that the kernel can evaluate it; `fuel = n + 1` suffices. -/
def digitsAux : Nat → Nat → Str
  | 0, _ => []
  | fuel + 1, n =>
    if n = 0 then [] else digitsAux fuel (n / 10) ++ [Char.ofNat (48 + n % 10)]

/-- Decimal digit characters of `n`, most significant first (empty for 0). -/
def natChars (n : Nat) : Str := digitsAux (n + 1) n

/-- Python `f"{n:02d}"`: decimal rendering of `n`, left-padded with `'0'` to
at least two characters. -/
def fmt02 (n : Nat) : Str :=
  List.replicate (2 - (natChars n).length) '0' ++ natChars n

/-- The synthetic episode key `f"未知集{n:02d}"` used by
`merge_same_season_series` when renaming a "00" episode. -/
def fmtUnknown (n : Nat) : Str := "未知集".toList ++ fmt02 n

/-- Decode a digit string back to a number (left inverse of the formatters). -/
def decodeDigs (cs : Str) : Nat := cs.foldl (fun a c => 10 * a + (c.toNat - 48)) 0

theorem decodeDigs_append_digit (l : Str) (c : Char) :
    decodeDigs (l ++ [c]) = 10 * decodeDigs l + (c.toNat - 48) := by
  simp [decodeDigs, List.foldl_append]

theorem digitChar_val (r : Nat) (h : r < 10) : (Char.ofNat (48 + r)).toNat - 48 = r := by
  interval_cases r <;> decide

theorem decodeDigs_digitsAux (fuel : Nat) :
    ∀ n, n < fuel → decodeDigs (digitsAux fuel n) = n := by
  induction fuel with
  | zero => intro n h; omega
  | succ fuel ih =>
    intro n h
    by_cases h0 : n = 0
    · simp [digitsAux, h0, decodeDigs]
    · have hdiv : n / 10 < n := Nat.div_lt_self (Nat.pos_of_ne_zero h0) (by omega)
      have : n / 10 < fuel := by omega
      rw [digitsAux, if_neg h0, decodeDigs_append_digit, ih _ this,
        digitChar_val _ (Nat.mod_lt _ (by omega))]
      omega

theorem decodeDigs_natChars (n : Nat) : decodeDigs (natChars n) = n :=
  decodeDigs_digitsAux (n + 1) n (Nat.lt_succ_self n)

theorem decodeDigs_replicate_zero (k : Nat) (s : Str) :
    decodeDigs (List.replicate k '0' ++ s) = decodeDigs s := by
  induction k with
  | zero => rfl
  | succ k ih => simpa [List.replicate_succ, decodeDigs] using ih

theorem decodeDigs_fmt02 (n : Nat) : decodeDigs (fmt02 n) = n := by
  rw [fmt02, decodeDigs_replicate_zero, decodeDigs_natChars]

theorem fmt02_injective : Function.Injective fmt02 := by
  intro a b h
  have := congrArg decodeDigs h
  rwa [decodeDigs_fmt02, decodeDigs_fmt02] at this

theorem fmtUnknown_injective : Function.Injective fmtUnknown := by
  intro a b h
  apply fmt02_injective
  have := congrArg (List.drop ("未知集".toList.length)) h
  simpa [fmtUnknown, List.drop_left] using this

/-! ### Python dicts: insertion-ordered association lists

`d[k] = v` replaces the value in place when `k` is already a key and appends
`(k, v)` otherwise, matching CPython's insertion-order semantics. -/

section AList

variable {K V : Type} [DecidableEq K]

/-- Dict read `d.get(k)`: value of the first (hence, under key uniqueness,
only) entry with key `k`. -/
def alookup : List (K × V) → K → Option V
  | [], _ => none
  | (k', v) :: rest, k => if k' = k then some v else alookup rest k

/-- Dict write `d[k] = v`. -/
def ainsert : List (K × V) → K → V → List (K × V)
  | [], k, v => [(k, v)]
  | (k', v') :: rest, k, v =>
    if k' = k then (k', v) :: rest else (k', v') :: ainsert rest k v

/-- The keys of a dict, in insertion order. -/
def akeys (m : List (K × V)) : List K := m.map Prod.fst

/-- Python `d.update(n)`: write every entry of `n` into `d`, in `n`'s order. -/
def aupdate (m n : List (K × V)) : List (K × V) :=
  n.foldl (fun acc e => ainsert acc e.1 e.2) m


@[simp] theorem akeys_nil : akeys ([] : List (K × V)) = [] := rfl

@[simp] theorem akeys_cons (e : K × V) (rest : List (K × V)) :
    akeys (e :: rest) = e.1 :: akeys rest := rfl

theorem alookup_isSome_iff_mem (m : List (K × V)) (k : K) :
    (alookup m k).isSome = true ↔ k ∈ akeys m := by
  induction m with
  | nil => simp [alookup]
  | cons e rest ih =>
    by_cases h : e.1 = k
    · simp [alookup, h]
    · have : ¬k = e.1 := fun hx => h hx.symm
      simp [alookup, h, ih, this]

theorem alookup_ainsert_self (m : List (K × V)) (k : K) (v : V) :
    alookup (ainsert m k v) k = some v := by
  induction m with
  | nil => simp [ainsert, alookup]
  | cons e rest ih =>
    by_cases h : e.1 = k <;> simp [ainsert, alookup, h, ih]

theorem alookup_ainsert_ne (m : List (K × V)) (k k' : K) (v : V) (h : k' ≠ k) :
    alookup (ainsert m k v) k' = alookup m k' := by
  have hkk : ¬k = k' := fun he => h he.symm
  induction m with
  | nil => simp [ainsert, alookup, hkk]
  | cons e rest ih =>
    by_cases he : e.1 = k
    · simp [ainsert, alookup, he, hkk]
    · by_cases he' : e.1 = k' <;> simp [ainsert, alookup, he, he', ih, h]

theorem akeys_ainsert_mem (m : List (K × V)) (k : K) (v : V) (h : k ∈ akeys m) :
    akeys (ainsert m k v) = akeys m := by
  induction m with
  | nil => cases h
  | cons e rest ih =>
    by_cases he : e.1 = k
    · simp [ainsert, he]
    · have hr : k ∈ akeys rest := by
        rcases List.mem_cons.mp h with h' | h'
        · exact absurd h'.symm he
        · exact h'
      simp [ainsert, he, ih hr]

theorem akeys_ainsert_not_mem (m : List (K × V)) (k : K) (v : V) (h : k ∉ akeys m) :
    akeys (ainsert m k v) = akeys m ++ [k] := by
  induction m with
  | nil => simp [ainsert]
  | cons e rest ih =>
    have he : e.1 ≠ k := fun hx => h (by simp [hx])
    have hr : k ∉ akeys rest := fun hx => h (by simp [hx])
    simp [ainsert, he, ih hr]

theorem mem_akeys_ainsert (m : List (K × V)) (k k' : K) (v : V) (h : k' ∈ akeys m) :
    k' ∈ akeys (ainsert m k v) := by
  by_cases hk : k ∈ akeys m
  · rwa [akeys_ainsert_mem m k v hk]
  · rw [akeys_ainsert_not_mem m k v hk]; exact List.mem_append_left _ h

theorem self_mem_akeys_ainsert (m : List (K × V)) (k : K) (v : V) :
    k ∈ akeys (ainsert m k v) := by
  by_cases hk : k ∈ akeys m
  · rwa [akeys_ainsert_mem m k v hk]
  · rw [akeys_ainsert_not_mem m k v hk]; simp

theorem akeys_ainsert_nodup (m : List (K × V)) (k : K) (v : V)
    (h : (akeys m).Nodup) : (akeys (ainsert m k v)).Nodup := by
  by_cases hk : k ∈ akeys m
  · rwa [akeys_ainsert_mem m k v hk]
  · rw [akeys_ainsert_not_mem m k v hk]
    simpa [List.nodup_append] using ⟨h, hk⟩

theorem ainsert_length_mem (m : List (K × V)) (k : K) (v : V) (h : k ∈ akeys m) :
    (ainsert m k v).length = m.length := by
  induction m with
  | nil => cases h
  | cons e rest ih =>
    by_cases he : e.1 = k
    · simp [ainsert, he]
    · have hr : k ∈ akeys rest := by
        rcases List.mem_cons.mp h with h' | h'
        · exact absurd h'.symm he
        · exact h'
      simp [ainsert, he, ih hr]

theorem ainsert_length_not_mem (m : List (K × V)) (k : K) (v : V) (h : k ∉ akeys m) :
    (ainsert m k v).length = m.length + 1 := by
  induction m with
  | nil => simp [ainsert]
  | cons e rest ih =>
    have he : e.1 ≠ k := fun hx => h (by simp [hx])
    have hr : k ∉ akeys rest := fun hx => h (by simp [hx])
    simp [ainsert, he, ih hr]

end AList

/-! ### Compiled regular expressions, modelled by the operations the source uses

`core.py` uses each configured pattern through exactly one of these
interfaces, always with `re.IGNORECASE` where the source passes that flag;
case handling is internal to the concrete matcher. -/

/-- A pattern used with `re.search(p, s)` followed by `int(match.group(1))`:
its search returns the leftmost match as `(start, length, captured integer)`.
Episode and season patterns are of this kind. -/
structure NumPattern where
  search : Str → Option (Nat × Nat × Nat)

/-- A pattern used with `re.findall(p, s)` on a pattern with one capturing
group: returns the captured group of every match, left to right.  Bracket
patterns are of this kind. -/
structure FindPattern where
  findall : Str → List Str

/-- A pattern used with `re.match(p, s)` (anchored at the start), only for
its boolean outcome.  Ignore-directory patterns are of this kind. -/
structure TestPattern where
  test : Str → Bool

/-- A pattern used with `re.sub(p, repl, s)` only: its search returns the
leftmost match as `(start, length)`.  Cleanup patterns are of this kind. -/
structure SpanPattern where
  search : Str → Option (Nat × Nat)

/-- Forget a `NumPattern`'s captured value, keeping the matched span; used
where the source passes an episode pattern to `re.sub`. -/
def spanOf (p : NumPattern) : Str → Option (Nat × Nat) :=
  fun s => (p.search s).map (fun r => (r.1, r.2.1))

/-- Python `re.sub(p, repl, s)`: replace every non-overlapping match,
scanning left to right; an empty match is replaced and scanning resumes
after the following character.  Fuel `s.length + 1` suffices because every
step either finishes or consumes at least one subject character. -/
def reSubAux (search : Str → Option (Nat × Nat)) (repl : Str) : Nat → Str → Str
  | 0, s => s
  | fuel + 1, s =>
    match search s with
    | none => s
    | some (i, len) =>
      if len = 0 then
        s.take i ++ repl ++
          match s.drop i with
          | [] => []
          | c :: rest => c :: reSubAux search repl fuel rest
      else s.take i ++ repl ++ reSubAux search repl fuel (s.drop (i + len))

/-- Python `re.sub(p, repl, s)` (all non-overlapping matches replaced). -/
def reSub (search : Str → Option (Nat × Nat)) (repl s : Str) : Str :=
  reSubAux search repl (s.length + 1) s

/-! ### The data model of `core.py` -/

/-- `BangumiConfig`: the rule set handed to the parser at construction time
(`config.py`).  Pattern lists are ordered; vocabularies are plain lists. -/
structure Config where
  known_release_groups : List Str
  common_tags : List Str
  bracket_patterns : List FindPattern
  episode_patterns : List NumPattern
  season_patterns : List NumPattern
  cleanup_patterns : List SpanPattern
  ignore_directory_patterns : List TestPattern

/-- `SeriesInfo`: one provisional series group's record. -/
structure SeriesInfo where
  dir_name : Str := []
  series_name : Str := []
  season : Option Nat := none
  release_group : Option Str := none
  tags : List Str := []
  episode_count : Nat := 0
  sample_file : Str := []
  episodes : List (Str × Str) := []
  pattern : Str := []
deriving DecidableEq, Repr

/-- `BangumiInfo`: a whole title with its seasons. -/
structure BangumiInfo where
  series_name : Str := []
  seasons : List (Nat × SeriesInfo) := []
  total_episodes : Nat := 0
  season_count : Nat := 0
  release_groups : List Str := []
  tags : List Str := []
deriving DecidableEq, Repr

/-- Sum of `info.episode_count for info in seasons.values()`. -/
def sumCounts (seasons : List (Nat × SeriesInfo)) : Nat :=
  (seasons.map (fun e => e.2.episode_count)).sum

/-- Python `season_info.season or 1`: `None` and `0` are falsy, so both fall
back to season 1. -/
def seasonOr1 : Option Nat → Nat
  | none => 1
  | some n => if n = 0 then 1 else n

/-- Python truthiness of `Optional[str]`: `None` and `""` are falsy. -/
def optStrFalsy : Option Str → Bool
  | none => true
  | some s => s = []

/-- `BangumiInfo.add_season` (`core.py` lines 55–85). -/
def addSeason (b : BangumiInfo) (season_info : SeriesInfo) : BangumiInfo :=
  let season_num := seasonOr1 season_info.season
  let addRg (rgs : List Str) : List Str :=
    match season_info.release_group with
    | none => rgs
    | some g => if g = [] then rgs else if g ∈ rgs then rgs else rgs ++ [g]
  let addTags (ts : List Str) : List Str :=
    season_info.tags.foldl (fun acc t => if t ∈ acc then acc else acc ++ [t]) ts
  let b1 :=
    match alookup b.seasons season_num with
    | some existing =>
      let eps := aupdate existing.episodes season_info.episodes
      let existing' := { existing with episodes := eps, episode_count := eps.length }
      { b with seasons := ainsert b.seasons season_num existing',
               release_groups := addRg b.release_groups,
               tags := addTags b.tags }
    | none =>
      { b with seasons := ainsert b.seasons season_num season_info,
               release_groups := addRg b.release_groups,
               tags := addTags b.tags }
  let b2 := { b1 with season_count := b1.seasons.length,
                      total_episodes := sumCounts b1.seasons }
  if b2.series_name = [] then { b2 with series_name := season_info.series_name }
  else b2

/-! ### `BangumiParser` extraction helpers (`core.py` lines 142–234) -/

/-- The replacement text `' {EP_NUM} '` of `extract_series_info` (braces
written as escapes). -/
def placeholderEp : Str := " \x7bEP_NUM\x7d ".toList

/-- `BangumiParser.extract_series_info` (lines 142–164): try each episode
pattern in order against the basename; on the first match return the episode
number from the capture group and the full path with the pattern substituted
by the placeholder (`re.sub`, hence every non-overlapping occurrence in the
full path); if nothing matches, return the path unchanged and episode 0. -/
def extract_series_info (patterns : List NumPattern) (filename : Str) : Str × Nat :=
  match patterns with
  | [] => (filename, 0)
  | p :: rest =>
    match p.search (basename filename) with
    | some r => (reSub (spanOf p) placeholderEp filename, r.2.2)
    | none => extract_series_info rest filename

/-- First pattern of the list matching `text`, returning the captured
integer (the inner loop of `extract_season_info`). -/
def searchNumList (patterns : List NumPattern) (text : Str) : Option Nat :=
  match patterns with
  | [] => none
  | p :: rest =>
    match p.search text with
    | some r => some r.2.2
    | none => searchNumList rest text

/-- `BangumiParser.extract_season_info` (lines 166–182): try all season
patterns on the full path, then on the basename. -/
def extract_season_info (patterns : List NumPattern) (path : Str) : Option Nat :=
  match searchNumList patterns path with
  | some n => some n
  | none => searchNumList patterns (basename path)

/-- `BangumiParser.extract_parameters_from_brackets` (lines 184–199):
`re.findall` for every bracket pattern, extending one list. -/
def extract_parameters_from_brackets (patterns : List FindPattern) (filename : Str) :
    List Str :=
  patterns.foldl (fun acc p => acc ++ p.findall filename) []

/-- `BangumiParser.identify_release_group` (lines 201–215): first parameter
containing (case-sensitive substring) a known group name wins; within a
parameter, the first vocabulary entry in configured order wins. -/
def identify_release_group (known : List Str) (parameters : List Str) : Option Str :=
  match parameters with
  | [] => none
  | param :: rest =>
    match known.find? (fun g => containsSub g param) with
    | some g => some g
    | none => identify_release_group known rest

/-- `BangumiParser.extract_tags` (lines 217–234): split every parameter on
whitespace; a word containing (case-sensitive substring) any configured tag
is collected once, in first-seen order. -/
def extract_tags (common : List Str) (parameters : List Str) : List Str :=
  parameters.foldl (fun tags param =>
    (splitWs param).foldl (fun tags' word =>
      if common.any (fun t => containsSub t word) then
        if word ∈ tags' then tags' else tags' ++ [word]
      else tags') tags) []

/-- `BangumiParser.extract_series_name_from_path` (lines 236–299). -/
def extract_series_name_from_path (cfg : Config) (file_path base_name : Str)
    (parameters : List Str) : Str :=
  let dir_path := dirname file_path
  let path_parts := if dir_path = [] then [] else splitOnChar '/' dir_path
  let fromDir := (path_parts.reverse).find? (fun part =>
    !part.isEmpty && !(cfg.ignore_directory_patterns.any (fun ip => ip.test part)))
  match fromDir with
  | some name => name
  | none =>
    let clean1 := cfg.episode_patterns.foldl (fun cn p => reSub (spanOf p) [' '] cn) base_name
    let clean2 := parameters.foldl (fun cn param =>
      let cn1 := replaceAll cn ('[' :: param ++ [']']) []
      let cn2 := replaceAll cn1 ('(' :: param ++ [')']) []
      let cn3 := replaceAll cn2 ('【' :: param ++ ['】']) []
      let cn4 := replaceAll cn3 ('『' :: param ++ ['』']) []
      replaceAll cn4 ('\x7b' :: param ++ ['\x7d']) []) clean1
    let clean3 := cfg.cleanup_patterns.foldl (fun cn p => reSub p.search [] cn) clean2
    let clean4 := stripStr (collapseSep clean3)
    if clean4 = [] then "Unknown Series".toList else clean4

/-! ### `BangumiParser.group_series` (lines 301–318) -/

/-- `defaultdict(list)` accumulation: append `v` to the list at key `k`,
creating the key at the end when absent. -/
def addToGroups {K V : Type} [DecidableEq K] (gs : List (K × List V)) (k : K) (v : V) :
    List (K × List V) :=
  match gs with
  | [] => [(k, [v])]
  | (k', vs) :: rest =>
    if k' = k then (k', vs ++ [v]) :: rest else (k', vs) :: addToGroups rest k v

/-- Python `<` on strings: lexicographic comparison of code points (here as
`≤`, the reflexive closure). -/
def leChars : Str → Str → Bool
  | [], _ => true
  | _ :: _, [] => false
  | a :: as, b :: bs =>
    if a.toNat < b.toNat then true
    else if b.toNat < a.toNat then false
    else leChars as bs

/-- Python `≤` on `(episode_num, filepath)` tuples, the order used by
`self.series_groups[pattern].sort()`. -/
def leEntry (x y : Nat × Str) : Bool :=
  Nat.blt x.1 y.1 || (x.1 == y.1 && leChars x.2 y.2)

/-- The sorting relation of `group_series` as a decidable proposition. -/
def epLe (x y : Nat × Str) : Prop := leEntry x y = true

instance : DecidableRel epLe := fun x y => inferInstanceAs (Decidable (_ = true))

/-- The grouping loop of `group_series`, before the per-key sort: lists hold
`(episode_num, filepath)` in discovery order. -/
def rawGroups (patterns : List NumPattern) (video_files : List Str) :
    List (Str × List (Nat × Str)) :=
  video_files.foldl (fun gs video =>
    let r := extract_series_info patterns video
    addToGroups gs r.1 (r.2, video)) []

/-- `BangumiParser.group_series` (lines 301–318): group, then
`list.sort()` each key's list (tuple order, a stable sort — but on full
`(episode, path)` tuples, which a total order makes unique anyway). -/
def group_series (patterns : List NumPattern) (video_files : List Str) :
    List (Str × List (Nat × Str)) :=
  (rawGroups patterns video_files).map (fun g => (g.1, List.insertionSort epLe g.2))

/-! ### `BangumiParser.analyze_series` (lines 320–371) -/

/-- The body of the `analyze_series` loop for one provisional group.
`videos.headD` models `videos[0]`; groups built by `group_series` are never
empty. -/
def analyzeOne (cfg : Config) (pattern : Str) (videos : List (Nat × Str)) : SeriesInfo :=
  let sample_file := (videos.headD (0, [])).2
  let base_name := basename sample_file
  let dir_name := dirname sample_file
  let parameters := extract_parameters_from_brackets cfg.bracket_patterns base_name
  let episode_map := videos.foldl (fun m e => ainsert m (fmt02 e.1) e.2) []
  { pattern := pattern
    sample_file := sample_file
    dir_name := dir_name
    release_group := identify_release_group cfg.known_release_groups parameters
    tags := extract_tags cfg.common_tags parameters
    season := extract_season_info cfg.season_patterns sample_file
    series_name := extract_series_name_from_path cfg sample_file base_name parameters
    episodes := episode_map
    episode_count := videos.length }

/-- `BangumiParser.analyze_series` over the grouped files. -/
def analyze_series (cfg : Config) (series_groups : List (Str × List (Nat × Str))) :
    List (Str × SeriesInfo) :=
  series_groups.map (fun g => (g.1, analyzeOne cfg g.1 g.2))

/-! ### `BangumiParser.merge_same_season_series` (lines 418–493) -/

/-- The `(series_name, dir_name, season or 1)` grouping key of the merge. -/
def mergeKey (info : SeriesInfo) : Str × Str × Nat :=
  (info.series_name, info.dir_name, seasonOr1 info.season)

/-- The `while new_ep_num in main_info.episodes` probe (lines 469–473),
starting from `counter` with the given fuel; `fuel = eps.length` makes the
loop's termination explicit (there are only `eps.length` keys to collide
with). -/
def probeFrom (eps : List (Str × Str)) : Nat → Nat → Str
  | counter, 0 => fmtUnknown counter
  | counter, fuel + 1 =>
    if fmtUnknown counter ∈ akeys eps then probeFrom eps (counter + 1) fuel
    else fmtUnknown counter

/-- The synthetic key chosen for a "00" episode merged into `eps`:
`未知集01`, or the first `未知集NN` not already a key. -/
def probeUnknown (eps : List (Str × Str)) : Str := probeFrom eps 1 eps.length

/-- One iteration of the episode-merging loop (lines 466–478). -/
def mergeEpStep (acc : List (Str × Str)) (e : Str × Str) : List (Str × Str) :=
  if e.1 = "00".toList then ainsert acc (probeUnknown acc) e.2
  else if (alookup acc e.1).isSome then acc
  else ainsert acc e.1 e.2

/-- Fold one lower-priority `SeriesInfo` into the merge base (the body of
`for pattern, info in series_list[1:]`, lines 462–487). -/
def mergeInto (main info : SeriesInfo) : SeriesInfo :=
  let eps := info.episodes.foldl mergeEpStep main.episodes
  let tags := info.tags.foldl (fun ts t => if t ∈ ts then ts else ts ++ [t]) main.tags
  let rg :=
    if optStrFalsy main.release_group && !optStrFalsy info.release_group then
      info.release_group
    else main.release_group
  { main with episodes := eps, tags := tags, release_group := rg }

/-- Fold every non-base member of a merge group into the base, in priority
order. -/
def foldInfos (main : SeriesInfo) (others : List SeriesInfo) : SeriesInfo :=
  others.foldl mergeInto main

/-- `priority_key` (lines 451–454): `(episode_count, has_specific_episodes)`. -/
def priorityKey (info : SeriesInfo) : Nat × Bool :=
  (info.episode_count, info.episodes.any (fun e => decide (e.1 ≠ "00".toList)))

/-- Python `≤` on `(int, bool)` priority tuples (`False < True`). -/
def leNatBool (x y : Nat × Bool) : Bool :=
  Nat.blt x.1 y.1 || (x.1 == y.1 && (!x.2 || y.2))

/-- `series_list.sort(key=priority_key, reverse=True)` as a relation:
`a` precedes `b` when `a`'s priority is at least `b`'s.  A stable sort with
this relation is exactly Python's stable descending sort. -/
def prioGe (a b : Str × SeriesInfo) : Prop :=
  leNatBool (priorityKey b.2) (priorityKey a.2) = true

instance : DecidableRel prioGe := fun a b => inferInstanceAs (Decidable (_ = true))

/-- Handling of one merge group (the body of `for key, series_list in
groups.items()`, lines 443–491): singletons pass through; otherwise sort by
priority descending, take the head as base, fold the rest in, and recompute
the episode count from the final map. -/
def processGroup (acc : List (Str × SeriesInfo))
    (g : (Str × Str × Nat) × List (Str × SeriesInfo)) : List (Str × SeriesInfo) :=
  match g.2 with
  | [e] => acc ++ [e]
  | entries =>
    match List.insertionSort prioGe entries with
    | [] => acc
    | (main_pattern, main_info) :: rest =>
      let merged := foldInfos main_info (rest.map Prod.snd)
      acc ++ [(main_pattern, { merged with episode_count := merged.episodes.length })]

/-- The `groups = defaultdict(list)` accumulation of the merge
(lines 434–439). -/
def buildGroups (series_info : List (Str × SeriesInfo)) :
    List ((Str × Str × Nat) × List (Str × SeriesInfo)) :=
  series_info.foldl (fun gs e => addToGroups gs (mergeKey e.2) e) []

/-- `BangumiParser.merge_same_season_series` (lines 418–493). -/
def merge_same_season_series (series_info : List (Str × SeriesInfo)) :
    List (Str × SeriesInfo) :=
  (buildGroups series_info).foldl processGroup []

/-- `BangumiParser.merge_multi_season_series` (lines 495–516). -/
def merge_multi_season_series (series_info : List (Str × SeriesInfo)) :
    List (Str × BangumiInfo) :=
  series_info.foldl (fun bd e =>
    let name := e.2.series_name
    let b :=
      match alookup bd name with
      | some b => b
      | none => { series_name := name : BangumiInfo }
    ainsert bd name (addSeason b e.2)) []

/-! ### Concrete instances: the first default episode pattern and the
default vocabularies (`config.py`) -/

/-- Character class `[ \-_\[]` of the default pattern
`r'[ \-_\[](\d{1,2})[ \-_\]]'`. -/
def isOpenCl (c : Char) : Bool := c = ' ' ∨ c = '-' ∨ c = '_' ∨ c = '['

/-- Character class `[ \-_\]]` of the same pattern. -/
def isCloseCl (c : Char) : Bool := c = ' ' ∨ c = '-' ∨ c = '_' ∨ c = ']'

/-- `\d`. -/
def isDigitCh (c : Char) : Bool := 48 ≤ c.toNat ∧ c.toNat ≤ 57

/-- Numeric value of a decimal digit character. -/
def digVal (c : Char) : Nat := c.toNat - 48

/-- Match of `r'[ \-_\[](\d{1,2})[ \-_\]]'` anchored at the head of the
subject, returning `(match length, captured value)`.  `\d{1,2}` is greedy:
two digits are preferred, backtracking to one when the closing class fails
(a second digit can never satisfy the closing class). -/
def pat1At : Str → Option (Nat × Nat)
  | a :: b :: c :: d :: _ =>
    if isOpenCl a ∧ isDigitCh b then
      if isDigitCh c ∧ isCloseCl d then some (4, 10 * digVal b + digVal c)
      else if isCloseCl c then some (3, digVal b)
      else none
    else none
  | [a, b, c] =>
    if isOpenCl a ∧ isDigitCh b ∧ isCloseCl c then some (3, digVal b) else none
  | _ => none

/-- Leftmost match of `r'[ \-_\[](\d{1,2})[ \-_\]]'`:
`(start, length, captured value)`.  The pattern contains no letters, so
`re.IGNORECASE` is immaterial. -/
def pat1SearchAux : Str → Option (Nat × Nat × Nat)
  | [] => none
  | c :: rest =>
    match pat1At (c :: rest) with
    | some r => some (0, r.1, r.2)
    | none => (pat1SearchAux rest).map (fun r => (r.1 + 1, r.2.1, r.2.2))

/-- The first default episode pattern `r'[ \-_\[](\d{1,2})[ \-_\]]'` as a
concrete `NumPattern`. -/
def pat1 : NumPattern := ⟨pat1SearchAux⟩

/-- `known_release_groups` of the default configuration. -/
def default_known_release_groups : List Str :=
  ["LoliHouse", "Sakurato", "Nekomoe kissaten", "ANi", "NC-Raws",
   "Leopard-Raws", "VCB-Studio", "SweetSub", "Lilith-Raws",
   "GM-Team", "MCE", "KTXP", "Crimson", "Philosophy-Raws"].map String.toList

/-- `common_tags` of the default configuration. -/
def default_common_tags : List Str :=
  ["WebRip", "BDRip", "HEVC", "AVC", "x264", "x265",
   "10bit", "8bit", "1080p", "720p", "480p", "4K",
   "AAC", "FLAC", "AC3", "DTS", "SRTx2", "ASSx2",
   "CHS", "CHT", "JP", "ENG", "GB", "BIG5"].map String.toList

/-- A configuration carrying only the first default episode pattern and the
default vocabularies; the remaining pattern lists are empty (the claims
quantify over arbitrary configurations). -/
def cfg1 : Config :=
  { known_release_groups := default_known_release_groups
    common_tags := default_common_tags
    bracket_patterns := []
    episode_patterns := [pat1]
    season_patterns := []
    cleanup_patterns := []
    ignore_directory_patterns := [] }

/-- ASCII lower-casing, used only to state that two strings differ in letter
case alone. -/
def asciiLower (c : Char) : Char :=
  if 65 ≤ c.toNat ∧ c.toNat ≤ 90 then Char.ofNat (c.toNat + 32) else c

/-! ### Concrete inputs used by witnesses and counterexamples -/

/-- Two files that differ only in the rendering of episode 1. -/
def cexVids : List Str := ["show - 1 .mkv".toList, "show - 01 .mkv".toList]

/-- The grouping key both members of `cexVids` collapse to. -/
def cexKey : Str := "show - \x7bEP_NUM\x7d .mkv".toList

/-- A path whose episode span also occurs in its directory part. -/
def cexPath2 : Str := "show - 01 x/show - 01 .mkv".toList

/-- A season-1 record holding episode "01" at path "old". -/
def cexOld : SeriesInfo :=
  { season := some 1, episode_count := 1, episodes := [("01".toList, "old".toList)] }

/-- A `BangumiInfo` whose season-1 slot is occupied by `cexOld`. -/
def cexB : BangumiInfo :=
  { series_name := "Show".toList, seasons := [(1, cexOld)],
    total_episodes := 1, season_count := 1 }

/-- An incoming season-1 record holding episode "01" at path "new". -/
def cexNew : SeriesInfo :=
  { season := some 1, episode_count := 1, episodes := [("01".toList, "new".toList)] }

/-- Scenario C, first fragment: episodes "01" and "02". -/
def scA : SeriesInfo :=
  { series_name := "Show".toList, dir_name := "Show".toList, season := some 1,
    episode_count := 2,
    episodes := [("01".toList, "f1".toList), ("02".toList, "f2".toList)],
    pattern := "pA".toList }

/-- Scenario C, second fragment: only the zero-key episode. -/
def scB : SeriesInfo :=
  { series_name := "Show".toList, dir_name := "Show".toList, season := some 1,
    episode_count := 1, episodes := [("00".toList, "f3".toList)],
    pattern := "pB".toList }

/-- A record with a merge key distinct from `scA`'s. -/
def scC : SeriesInfo :=
  { series_name := "Other".toList, dir_name := "Other".toList, season := none,
    episode_count := 1, episodes := [("01".toList, "g1".toList)],
    pattern := "pC".toList }

/-! ### Dict-update lemmas -/

theorem alookup_aupdate_not_mem {K V : Type} [DecidableEq K]
    (n : List (K × V)) (m : List (K × V)) (k : K) (h : k ∉ akeys n) :
    alookup (aupdate m n) k = alookup m k := by
  induction n generalizing m with
  | nil => rfl
  | cons e n ih =>
    have hne : k ≠ e.1 := fun hx => h (by simp [hx])
    have hr : k ∉ akeys n := fun hx => h (by simp [hx])
    show alookup (aupdate (ainsert m e.1 e.2) n) k = alookup m k
    rw [ih _ hr, alookup_ainsert_ne _ _ _ _ hne]

theorem alookup_aupdate_mem {K V : Type} [DecidableEq K]
    (n : List (K × V)) (m : List (K × V)) (k : K) (v : V)
    (hn : (akeys n).Nodup) (h : alookup n k = some v) :
    alookup (aupdate m n) k = some v := by
  induction n generalizing m with
  | nil => cases h
  | cons e n ih =>
    by_cases he : e.1 = k
    · have hv : v = e.2 := by
        have := h
        rw [show alookup (e :: n) k = some e.2 by simp [alookup, he]] at this
        exact (Option.some.inj this).symm
      have hk : k ∉ akeys n := by
        have := (List.nodup_cons.mp (by simpa using hn)).1
        simpa [he] using this
      show alookup (aupdate (ainsert m e.1 e.2) n) k = some v
      rw [alookup_aupdate_not_mem _ _ _ hk, he, alookup_ainsert_self, hv]
    · have hr : alookup n k = some v := by
        have := h
        rwa [show alookup (e :: n) k = alookup n k by simp [alookup, he]] at this
      exact ih _ (List.nodup_cons.mp (by simpa using hn)).2 hr

/-! ### Claim C4 -/

/-- **C4** — After every call to `BangumiInfo.add_season`, `total_episodes`
equals the sum of `episode_count` over the member seasons: the total is
recomputed from the (updated) seasons map on every insertion, for every
starting `BangumiInfo`, even one whose stored total is arbitrary. -/
theorem addSeason_total_is_sum (b : BangumiInfo) (si : SeriesInfo) :
    (addSeason b si).total_episodes = sumCounts (addSeason b si).seasons := by
  simp only [addSeason]
  split <;> split <;> rfl

/-! ### Claim C2 -/

/-- **C2 (counterexample)** — Inserting `cexNew` into a `BangumiInfo` whose
season-1 slot holds episode "01" at path "old" leaves that key mapped to the
*incoming* path "new": the occupying season's file path for the colliding
key is not unchanged, refuting the claim that existing entries win. -/
theorem addSeason_existing_loses_cex :
    cexB.seasons.map (fun e => alookup e.2.episodes ("01".toList)) = [some ("old".toList)] ∧
    (addSeason cexB cexNew).seasons.map (fun e => alookup e.2.episodes ("01".toList)) =
      [some ("new".toList)] ∧
    ("new".toList : Str) ≠ "old".toList := by
  refine ⟨by decide, by decide, by decide⟩

/-- **C2 (amended)** — When `add_season` hits an occupied season slot, the
two episode maps are merged with the *incoming* entries winning on key
collision (`dict.update` semantics): the slot afterwards holds the existing
record with episodes `aupdate existing incoming`, its episode count is
recomputed as the size of that merged map, and every key of the incoming map
(keys present in both included) maps to the incoming file path. -/
theorem addSeason_occupied_incoming_wins (b : BangumiInfo) (si existing : SeriesInfo)
    (k v : Str)
    (hocc : alookup b.seasons (seasonOr1 si.season) = some existing)
    (hnodup : (akeys si.episodes).Nodup)
    (hk : alookup si.episodes k = some v) :
    alookup (addSeason b si).seasons (seasonOr1 si.season) =
      some { existing with
               episodes := aupdate existing.episodes si.episodes,
               episode_count := (aupdate existing.episodes si.episodes).length } ∧
    alookup (aupdate existing.episodes si.episodes) k = some v := by
  constructor
  · simp only [addSeason, hocc]
    split <;> exact alookup_ainsert_self _ _ _
  · exact alookup_aupdate_mem _ _ _ _ hnodup hk

/-- **C2 (witness)** — The amended statement at the concrete occupied-slot
input: key "01" ends at the incoming path "new". -/
theorem addSeason_occupied_incoming_wins_witness :
    alookup cexB.seasons (seasonOr1 cexNew.season) = some cexOld ∧
    (akeys cexNew.episodes).Nodup ∧
    alookup (aupdate cexOld.episodes cexNew.episodes) ("01".toList) = some ("new".toList) :=
  ⟨by decide, by decide,
    (addSeason_occupied_incoming_wins cexB cexNew cexOld ("01".toList) ("new".toList)
      (by decide) (by decide) (by decide)).2⟩

/-! ### Claim C10 -/

/-- **C10** — Release-group identification and tag extraction test vocabulary
membership by case-sensitive substring containment: whenever no vocabulary
entry is an exact (case-sensitive) substring of any bracket token — in
particular when a token contains an entry only with different letter case —
`identify_release_group` returns `None` and `extract_tags` classifies no
word. -/
theorem vocab_containment_case_sensitive (known common params : List Str)
    (hg : ∀ p ∈ params, ∀ g ∈ known, containsSub g p = false)
    (ht : ∀ p ∈ params, ∀ w ∈ splitWs p, ∀ t ∈ common, containsSub t w = false) :
    identify_release_group known params = none ∧ extract_tags common params = [] := by
  have inner0 : ∀ (ws : List Str), (∀ w ∈ ws, ∀ t ∈ common, containsSub t w = false) →
      ∀ (acc : List Str),
        ws.foldl (fun tags' word =>
          if common.any (fun t => containsSub t word) then
            if word ∈ tags' then tags' else tags' ++ [word]
          else tags') acc = acc := by
    intro ws
    induction ws with
    | nil => intro _ _; rfl
    | cons w ws ih =>
      intro hws acc
      have hany : common.any (fun t => containsSub t w) = false := by
        rw [List.any_eq_false]
        intro t htm
        simp [hws w (List.mem_cons_self _ _) t htm]
      simp only [List.foldl_cons, hany, Bool.false_eq_true, if_false]
      exact ih (fun w' hw' t htm => hws w' (List.mem_cons_of_mem _ hw') t htm) acc
  constructor
  · induction params with
    | nil => rfl
    | cons p rest ih =>
      have hfind : known.find? (fun g => containsSub g p) = none := by
        rw [List.find?_eq_none]
        intro g hgmem
        simp [hg p (List.mem_cons_self _ _) g hgmem]
      show identify_release_group known (p :: rest) = none
      unfold identify_release_group
      rw [hfind]
      exact ih (fun q hq g hgm => hg q (List.mem_cons_of_mem _ hq) g hgm)
        (fun q hq w hw t htm => ht q (List.mem_cons_of_mem _ hq) w hw t htm)
  · show params.foldl _ [] = []
    induction params with
    | nil => rfl
    | cons p rest ih =>
      rw [List.foldl_cons, inner0 (splitWs p) (ht p (List.mem_cons_self _ _)) []]
      exact ih (fun q hq g hgm => hg q (List.mem_cons_of_mem _ hq) g hgm)
        (fun q hq w hw t htm => ht q (List.mem_cons_of_mem _ hq) w hw t htm)

/-- **C10 (witness)** — The token "lolihouse" is the default vocabulary
entry "LoliHouse" with the letter case changed, yet no default vocabulary
entry is a case-sensitive substring of it, so the release group is `None`
and no tag is extracted. -/
theorem vocab_containment_case_sensitive_witness :
    ("lolihouse".toList = "LoliHouse".toList.map asciiLower) ∧
    ("LoliHouse".toList ∈ default_known_release_groups) ∧
    identify_release_group default_known_release_groups ["lolihouse".toList] = none ∧
    extract_tags default_common_tags ["lolihouse".toList] = [] := by
  refine ⟨by decide, by decide, ?_⟩
  exact vocab_containment_case_sensitive default_known_release_groups default_common_tags
    ["lolihouse".toList] (by decide) (by decide)

/-! ### Claim C5 -/

/-- **C5 (amended)** — For a path whose basename is matched by some episode
pattern, `extract_series_info` returns the integer from the capture group of
the first matching pattern in list order, together with the original full
path rewritten by `re.sub` with the placeholder — which replaces *every*
non-overlapping occurrence of the pattern in the full path, not only the
span matched in the basename. -/
theorem extract_first_match (ps1 ps2 : List NumPattern) (p : NumPattern) (f : Str)
    (i l n : Nat)
    (h1 : ∀ q ∈ ps1, q.search (basename f) = none)
    (hp : p.search (basename f) = some (i, l, n)) :
    extract_series_info (ps1 ++ p :: ps2) f = (reSub (spanOf p) placeholderEp f, n) := by
  induction ps1 with
  | nil =>
    show extract_series_info (p :: ps2) f = _
    unfold extract_series_info
    rw [hp]
  | cons q qs ih =>
    show extract_series_info (q :: (qs ++ p :: ps2)) f = _
    unfold extract_series_info
    rw [h1 q (List.mem_cons_self _ _)]
    exact ih (fun r hr => h1 r (List.mem_cons_of_mem _ hr))

/-- **C5 (witness)** — The first default episode pattern matches
`show - 01 .mkv` at span (6, 4) capturing 1, and extraction returns that
episode with the substituted grouping key. -/
theorem extract_first_match_witness :
    pat1.search (basename ("show - 01 .mkv".toList)) = some (6, 4, 1) ∧
    extract_series_info [pat1] ("show - 01 .mkv".toList) =
      (reSub (spanOf pat1) placeholderEp ("show - 01 .mkv".toList), 1) :=
  ⟨by decide, extract_first_match [] [] pat1 _ 6 4 1 (by simp) (by decide)⟩

/-- **C5 (counterexample)** — On `show - 01 x/show - 01 .mkv` the episode
span ` 01 ` also occurs in the directory part, and `re.sub` rewrites both
occurrences: the result differs from the path with only the
basename-matched span replaced, refuting "the matched span — and only that
span — is replaced". -/
theorem extract_sub_replaces_all_cex :
    extract_series_info [pat1] cexPath2 =
      ("show - \x7bEP_NUM\x7d x/show - \x7bEP_NUM\x7d .mkv".toList, 1) ∧
    ("show - \x7bEP_NUM\x7d x/show - \x7bEP_NUM\x7d .mkv".toList : Str) ≠
      "show - 01 x/show - \x7bEP_NUM\x7d .mkv".toList := by
  refine ⟨by decide, by decide⟩

/-- Totality of the code-point string order (helper). -/
theorem leChars_total : ∀ a b : Str, leChars a b = true ∨ leChars b a = true := by
  intro a
  induction a with
  | nil => intro b; left; rfl
  | cons x xs ih =>
    intro b
    cases b with
    | nil => right; rfl
    | cons y ys =>
      by_cases h1 : x.toNat < y.toNat
      · left; simp [leChars, h1]
      · by_cases h2 : y.toNat < x.toNat
        · right; simp [leChars, h2]
        · rcases ih ys with h | h
          · left; simp [leChars, h1, h2, h]
          · right; simp [leChars, h1, h2, h]

/-- Transitivity of the code-point string order (helper). -/
theorem leChars_trans : ∀ a b c : Str, leChars a b = true → leChars b c = true →
    leChars a c = true := by
  intro a
  induction a with
  | nil => intros; rfl
  | cons x xs ih =>
    intro b c hab hbc
    cases b with
    | nil => simp [leChars] at hab
    | cons y ys =>
      cases c with
      | nil => simp [leChars] at hbc
      | cons z zs =>
        simp only [leChars] at hab hbc ⊢
        split_ifs at hab hbc ⊢ <;>
          first
          | rfl
          | omega
          | (exact ih ys zs hab hbc)

/-- Characterisation of the tuple order used by `group_series` (helper). -/
theorem leEntry_iff (x y : Nat × Str) :
    leEntry x y = true ↔ (x.1 < y.1 ∨ (x.1 = y.1 ∧ leChars x.2 y.2 = true)) := by
  simp [leEntry, Nat.blt_eq, Bool.or_eq_true, Bool.and_eq_true, beq_iff_eq]

instance : IsTotal (Nat × Str) epLe :=
  ⟨fun x y => by
    show leEntry x y = true ∨ leEntry y x = true
    rw [leEntry_iff, leEntry_iff]
    rcases Nat.lt_trichotomy x.1 y.1 with h | h | h
    · exact Or.inl (Or.inl h)
    · rcases leChars_total x.2 y.2 with hc | hc
      · exact Or.inl (Or.inr ⟨h, hc⟩)
      · exact Or.inr (Or.inr ⟨h.symm, hc⟩)
    · exact Or.inr (Or.inl h)⟩

instance : IsTrans (Nat × Str) epLe :=
  ⟨fun x y z hxy hyz => by
    have hxy' := (leEntry_iff x y).mp hxy
    have hyz' := (leEntry_iff y z).mp hyz
    show leEntry x z = true
    rw [leEntry_iff]
    rcases hxy' with h | ⟨he, hc⟩ <;> rcases hyz' with h' | ⟨he', hc'⟩
    · exact Or.inl (h.trans h')
    · exact Or.inl (he' ▸ h)
    · exact Or.inl (he ▸ h')
    · exact Or.inr ⟨he.trans he', leChars_trans _ _ _ hc hc'⟩⟩

/-! ### Claim C6 -/

/-- **C6 (amended)** — After `group_series`, each grouping key's list is a
permutation of its discovery-order entries, sorted ascending by the *pair*
(episode number, file path) — Python's `list.sort()` on tuples — hence
sorted by episode number ascending, but with ties in episode number ordered
by path comparison rather than by original discovery order. -/
theorem group_series_sorted (ps : List NumPattern) (vids : List Str) (k : Str)
    (l : List (Nat × Str)) (h : (k, l) ∈ group_series ps vids) :
    l.Sorted epLe ∧ l.Sorted (fun x y => x.1 ≤ y.1) ∧
      ∃ l0, (k, l0) ∈ rawGroups ps vids ∧ l.Perm l0 := by
  rcases List.mem_map.mp h with ⟨g, hg, heq⟩
  have hk : g.1 = k := congrArg Prod.fst heq
  have hl : List.insertionSort epLe g.2 = l := congrArg Prod.snd heq
  have hsorted : l.Sorted epLe := hl ▸ List.sorted_insertionSort epLe g.2
  refine ⟨hsorted, ?_, g.2, ?_, ?_⟩
  · exact hsorted.imp (fun hle => by
      rcases (leEntry_iff _ _).mp hle with h' | ⟨h', _⟩
      · exact Nat.le_of_lt h'
      · exact Nat.le_of_eq h')
  · have : (g.1, g.2) = (k, g.2) := by rw [hk]
    exact this ▸ hg
  · exact hl ▸ List.perm_insertionSort epLe g.2

/-- **C6 (witness)** — The amended statement at the concrete two-file
group. -/
theorem group_series_sorted_witness :
    ((cexKey, [(1, "show - 01 .mkv".toList), (1, "show - 1 .mkv".toList)]) ∈
       group_series [pat1] cexVids) ∧
    [(1, ("show - 01 .mkv".toList : Str)), (1, "show - 1 .mkv".toList)].Sorted epLe ∧
    [(1, ("show - 01 .mkv".toList : Str)), (1, "show - 1 .mkv".toList)].Sorted
      (fun x y => x.1 ≤ y.1) ∧
    ∃ l0, (cexKey, l0) ∈ rawGroups [pat1] cexVids ∧
      [(1, ("show - 01 .mkv".toList : Str)), (1, "show - 1 .mkv".toList)].Perm l0 := by
  have h := group_series_sorted [pat1] cexVids cexKey
    [(1, "show - 01 .mkv".toList), (1, "show - 1 .mkv".toList)] (by decide)
  exact ⟨by decide, h.1, h.2.1, h.2.2⟩

/-- **C6 (counterexample)** — `show - 1 .mkv` is discovered before
`show - 01 .mkv` and both carry episode 1, yet the sorted group lists
`show - 01 .mkv` first (path order), refuting "ties preserve original
discovery order". -/
theorem group_series_tie_order_cex :
    rawGroups [pat1] cexVids =
      [(cexKey, [(1, "show - 1 .mkv".toList), (1, "show - 01 .mkv".toList)])] ∧
    group_series [pat1] cexVids =
      [(cexKey, [(1, "show - 01 .mkv".toList), (1, "show - 1 .mkv".toList)])] ∧
    [(1, ("show - 01 .mkv".toList : Str)), (1, "show - 1 .mkv".toList)] ≠
      [(1, ("show - 1 .mkv".toList : Str)), (1, "show - 01 .mkv".toList)] := by
  refine ⟨by decide, by decide, by decide⟩
/-- Building the episode map preserves key uniqueness (helper). -/
theorem fold_ainsert_nodup (pairs : List (Nat × Str)) :
    ∀ (acc : List (Str × Str)), (akeys acc).Nodup →
      (akeys (pairs.foldl (fun m e => ainsert m (fmt02 e.1) e.2) acc)).Nodup := by
  induction pairs with
  | nil => intro acc h; exact h
  | cons e rest ih =>
    intro acc h
    rw [List.foldl_cons]
    exact ih _ (akeys_ainsert_nodup _ _ _ h)

/-- With pairwise-distinct formatted keys, the episode map keeps one entry
per input pair (helper). -/
theorem fold_ainsert_length (pairs : List (Nat × Str)) :
    ∀ (acc : List (Str × Str)),
      (pairs.map (fun e => fmt02 e.1)).Nodup →
      (∀ e ∈ pairs, fmt02 e.1 ∉ akeys acc) →
      (pairs.foldl (fun m e => ainsert m (fmt02 e.1) e.2) acc).length =
        acc.length + pairs.length := by
  induction pairs with
  | nil => intro acc _ _; simp
  | cons e rest ih =>
    intro acc hnd hdisj
    rw [List.foldl_cons]
    have hnotin : fmt02 e.1 ∉ akeys acc := hdisj e (List.mem_cons_self _ _)
    have hkeys : akeys (ainsert acc (fmt02 e.1) e.2) = akeys acc ++ [fmt02 e.1] :=
      akeys_ainsert_not_mem _ _ _ hnotin
    have hhead : fmt02 e.1 ∉ rest.map (fun x => fmt02 x.1) := (List.nodup_cons.mp hnd).1
    rw [ih (ainsert acc (fmt02 e.1) e.2) (List.nodup_cons.mp hnd).2 ?disj]
    · rw [ainsert_length_not_mem _ _ _ hnotin]
      simp; omega
    case disj =>
      intro x hx
      rw [hkeys]
      intro hmem
      rcases List.mem_append.mp hmem with h | h
      · exact hdisj x (List.mem_cons_of_mem _ hx) h
      · have : fmt02 x.1 = fmt02 e.1 := by simpa using h
        exact hhead (this ▸ List.mem_map_of_mem (fun y => fmt02 y.1) hx)

/-! ### Claim C1 -/

/-- **C1 (amended)** — Every `SeriesInfo` produced by `analyze_series` has
pairwise-distinct episode keys, and its `episode_count` equals the *number
of files* in its provisional group; that number equals the size of the
`episodes` map whenever the formatted episode numbers in the group are
pairwise distinct, but exceeds it when two files of the group carry the same
extracted episode number (duplicate keys collapse in the map while the count
still counts files). -/
theorem analyze_series_episode_invariants (cfg : Config)
    (gs : List (Str × List (Nat × Str))) (k : Str) (info : SeriesInfo)
    (h : (k, info) ∈ analyze_series cfg gs) :
    (akeys info.episodes).Nodup ∧
    ∃ videos, (k, videos) ∈ gs ∧ info.episode_count = videos.length ∧
      ((videos.map (fun e => fmt02 e.1)).Nodup →
        info.episodes.length = info.episode_count) := by
  rcases List.mem_map.mp h with ⟨g, hg, heq⟩
  have hk : g.1 = k := congrArg Prod.fst heq
  have hinfo : analyzeOne cfg g.1 g.2 = info := congrArg Prod.snd heq
  have heps : info.episodes = g.2.foldl (fun m e => ainsert m (fmt02 e.1) e.2) [] := by
    rw [← hinfo]; rfl
  have hcount : info.episode_count = g.2.length := by rw [← hinfo]; rfl
  refine ⟨?_, g.2, hk ▸ hg, hcount, ?_⟩
  · rw [heps]
    exact fold_ainsert_nodup g.2 [] (by simp)
  · intro hnd
    rw [heps, hcount]
    simpa using fold_ainsert_length g.2 [] hnd (by simp)

/-- **C1 (witness)** — The amended statement at the two-file group in which
both files carry episode 1: the group is in the analysis output, the count
is 2 (the file count) while the episode map holds a single entry. -/
theorem analyze_series_episode_invariants_witness :
    ((cexKey, analyzeOne cfg1 cexKey
        [(1, "show - 01 .mkv".toList), (1, "show - 1 .mkv".toList)]) ∈
      analyze_series cfg1 (group_series [pat1] cexVids)) ∧
    (akeys (analyzeOne cfg1 cexKey
        [(1, "show - 01 .mkv".toList), (1, "show - 1 .mkv".toList)]).episodes).Nodup ∧
    ∃ videos, (cexKey, videos) ∈ group_series [pat1] cexVids ∧
      (analyzeOne cfg1 cexKey
        [(1, "show - 01 .mkv".toList), (1, "show - 1 .mkv".toList)]).episode_count =
        videos.length := by
  have h := analyze_series_episode_invariants cfg1 (group_series [pat1] cexVids) cexKey
    (analyzeOne cfg1 cexKey [(1, "show - 01 .mkv".toList), (1, "show - 1 .mkv".toList)])
    (by decide)
  rcases h.2 with ⟨videos, hv, hc, _⟩
  exact ⟨by decide, h.1, videos, hv, hc⟩

/-- **C1 (counterexample)** — For the two files `show - 1 .mkv` and
`show - 01 .mkv` (same provisional group, both episode 1), the produced
`SeriesInfo` has `episode_count = 2` but an `episodes` map with a single
entry, refuting `episode_count == episodes.size()`. -/
theorem analyze_series_count_mismatch_cex :
    (analyze_series cfg1 (group_series [pat1] cexVids)).map
      (fun e => (e.2.episode_count, e.2.episodes.length, akeys e.2.episodes)) =
      [(2, 1, ["01".toList])] ∧ (2 : Nat) ≠ 1 := by
  refine ⟨by decide, by decide⟩
/-- The collision probe, started at `c` with enough fuel and with every
smaller synthetic key known present, lands on a synthetic key that is absent
from the map and minimal among absent ones (helper). -/
theorem probeFrom_spec (eps : List (Str × Str)) (hnd : (akeys eps).Nodup) :
    ∀ (fuel c : Nat), 1 ≤ c → eps.length + 1 ≤ c + fuel →
      (∀ j, 1 ≤ j → j < c → fmtUnknown j ∈ akeys eps) →
      probeFrom eps c fuel ∉ akeys eps ∧
      ∃ N, 1 ≤ N ∧ probeFrom eps c fuel = fmtUnknown N ∧
        ∀ j, 1 ≤ j → j < N → fmtUnknown j ∈ akeys eps := by
  intro fuel
  induction fuel with
  | zero =>
    intro c hc hlen hpre
    have hnotin : fmtUnknown c ∉ akeys eps := by
      intro hin
      have hinj1 : Function.Injective (fun i : Nat => fmtUnknown (i + 1)) := by
        intro a b hab
        have := fmtUnknown_injective hab
        omega
      have hLnodup : ((List.range eps.length).map (fun i => fmtUnknown (i + 1))).Nodup :=
        (List.nodup_range _).map hinj1
      have hLsub : ∀ x ∈ (List.range eps.length).map (fun i => fmtUnknown (i + 1)),
          x ∈ akeys eps := by
        intro x hx
        rcases List.mem_map.mp hx with ⟨i, hi, rfl⟩
        have hi' : i < eps.length := List.mem_range.mp hi
        exact hpre (i + 1) (by omega) (by omega)
      have hcardL : ((List.range eps.length).map (fun i => fmtUnknown (i + 1))).toFinset.card
          = eps.length := by
        rw [List.card_toFinset, hLnodup.dedup]
        simp
      have hcardK : (akeys eps).toFinset.card = eps.length := by
        rw [List.card_toFinset, hnd.dedup]
        simp [akeys]
      have hsub : ((List.range eps.length).map (fun i => fmtUnknown (i + 1))).toFinset ⊆
          (akeys eps).toFinset := by
        intro x hx
        exact List.mem_toFinset.mpr (hLsub x (List.mem_toFinset.mp hx))
      have heq : ((List.range eps.length).map (fun i => fmtUnknown (i + 1))).toFinset =
          (akeys eps).toFinset :=
        Finset.eq_of_subset_of_card_le hsub (by omega)
      have hcin : fmtUnknown c ∈ (List.range eps.length).map (fun i => fmtUnknown (i + 1)) := by
        rw [← List.mem_toFinset, heq, List.mem_toFinset]
        exact hin
      rcases List.mem_map.mp hcin with ⟨i, hi, hieq⟩
      have : i + 1 = c := by
        have := fmtUnknown_injective hieq
        omega
      have hi' : i < eps.length := List.mem_range.mp hi
      omega
    exact ⟨hnotin, c, hc, rfl, hpre⟩
  | succ fuel ih =>
    intro c hc hlen hpre
    by_cases hmem : fmtUnknown c ∈ akeys eps
    · simp only [probeFrom, hmem, if_true]
      refine ih (c + 1) (by omega) (by omega) ?_
      intro j hj hjc
      rcases Nat.lt_or_ge j c with h | h
      · exact hpre j hj h
      · have : j = c := by omega
        rwa [this]
    · have hstop : probeFrom eps c (fuel + 1) = fmtUnknown c := by
        simp only [probeFrom, hmem, if_false]
      rw [hstop]
      exact ⟨hmem, c, hc, rfl, hpre⟩

/-- The synthetic key chosen for a "00" episode is absent from the current
map, and every smaller synthetic key is present (helper). -/
theorem probeUnknown_spec (eps : List (Str × Str)) (hnd : (akeys eps).Nodup) :
    probeUnknown eps ∉ akeys eps ∧
    ∃ N, 1 ≤ N ∧ probeUnknown eps = fmtUnknown N ∧
      ∀ j, 1 ≤ j → j < N → fmtUnknown j ∈ akeys eps :=
  probeFrom_spec eps hnd eps.length 1 (le_refl 1) (by omega)
    (fun j h1 h2 => absurd (Nat.lt_of_lt_of_le h2 h1) (lt_irrefl j))

/-- The episode-merging fold never changes the value of, never drops, and
keeps unique the keys already in the accumulating map (helper). -/
theorem mergeEp_fold_preserves (entries : List (Str × Str)) :
    ∀ (acc : List (Str × Str)), (akeys acc).Nodup →
      (akeys (entries.foldl mergeEpStep acc)).Nodup ∧
      ∀ k, k ∈ akeys acc →
        alookup (entries.foldl mergeEpStep acc) k = alookup acc k ∧
        k ∈ akeys (entries.foldl mergeEpStep acc) := by
  induction entries with
  | nil => intro acc h; exact ⟨h, fun _ hk => ⟨rfl, hk⟩⟩
  | cons e rest ih =>
    intro acc hnd
    have hstep : (akeys (mergeEpStep acc e)).Nodup ∧
        ∀ k, k ∈ akeys acc →
          alookup (mergeEpStep acc e) k = alookup acc k ∧
          k ∈ akeys (mergeEpStep acc e) := by
      unfold mergeEpStep
      by_cases h00 : e.1 = "00".toList
      · rw [if_pos h00]
        have hprobe := (probeUnknown_spec acc hnd).1
        refine ⟨akeys_ainsert_nodup _ _ _ hnd, fun k hk => ?_⟩
        have hne : k ≠ probeUnknown acc := fun hx => hprobe (hx ▸ hk)
        exact ⟨alookup_ainsert_ne _ _ _ _ hne, mem_akeys_ainsert _ _ _ _ hk⟩
      · rw [if_neg h00]
        by_cases hpres : (alookup acc e.1).isSome
        · rw [if_pos hpres]
          exact ⟨hnd, fun _ hk => ⟨rfl, hk⟩⟩
        · rw [if_neg hpres]
          have he1 : e.1 ∉ akeys acc :=
            fun hx => hpres ((alookup_isSome_iff_mem acc e.1).mpr hx)
          refine ⟨akeys_ainsert_nodup _ _ _ hnd, fun k hk => ?_⟩
          have hne : k ≠ e.1 := fun hx => he1 (hx ▸ hk)
          exact ⟨alookup_ainsert_ne _ _ _ _ hne, mem_akeys_ainsert _ _ _ _ hk⟩
    rcases ih (mergeEpStep acc e) hstep.1 with ⟨hnd', hpres'⟩
    refine ⟨by rw [List.foldl_cons]; exact hnd', fun k hk => ?_⟩
    rcases hstep.2 k hk with ⟨hl, hm⟩
    rcases hpres' k hm with ⟨hl', hm'⟩
    rw [List.foldl_cons]
    exact ⟨hl'.trans hl, hm'⟩

/-! ### Claim C3 -/

/-- **C3** — `merge_same_season_series` never overwrites an existing episode
key in the merge base: for every key `k` present in the base's episode map
before the fold, the value at `k` after folding in any list of groups equals
its value before, whatever episode keys (including "00") the folded-in
groups contain. -/
theorem merge_base_keys_preserved (main : SeriesInfo) (others : List SeriesInfo) (k : Str)
    (hnd : (akeys main.episodes).Nodup) (hk : k ∈ akeys main.episodes) :
    alookup (foldInfos main others).episodes k = alookup main.episodes k := by
  induction others generalizing main with
  | nil => rfl
  | cons o os ih =>
    show alookup (foldInfos (mergeInto main o) os).episodes k = _
    have heq : (mergeInto main o).episodes = o.episodes.foldl mergeEpStep main.episodes := rfl
    rcases mergeEp_fold_preserves o.episodes main.episodes hnd with ⟨hnd1, hpres1⟩
    rcases hpres1 k hk with ⟨hl1, hm1⟩
    rw [ih (mergeInto main o) (heq ▸ hnd1) (heq ▸ hm1), heq, hl1]

/-- **C3 (witness)** — Folding the zero-key fragment `scB` into the base
`scA` leaves the base's key "01" mapped to its original path. -/
theorem merge_base_keys_preserved_witness :
    (akeys scA.episodes).Nodup ∧ ("01".toList ∈ akeys scA.episodes) ∧
    alookup (foldInfos scA [scB]).episodes ("01".toList) =
      alookup scA.episodes ("01".toList) :=
  ⟨by decide, by decide,
    merge_base_keys_preserved scA [scB] ("01".toList) (by decide) (by decide)⟩

/-! ### Claim C7 -/

/-- **C7 (counterexample)** — In Scenario C the merged episode keys are
`01`, `02` and `未知集01`: the synthetic key literal is `未知集NN`, not
`unknown-N`, so the claimed result set {"01","02","unknown-01"} is wrong. -/
theorem merge_unknown_key_literal_cex :
    (merge_same_season_series [(scA.pattern, scA), (scB.pattern, scB)]).map
      (fun e => akeys e.2.episodes) =
      [["01".toList, "02".toList, "未知集01".toList]] ∧
    ("unknown-01".toList : Str) ∉
      [("01".toList : Str), "02".toList, "未知集01".toList] := by
  refine ⟨by decide, by decide⟩

/-- **C7 (amended)** — During a `merge_same_season_series` fold, an incoming
episode keyed "00" is inserted under the synthetic key `未知集NN`
(`f"未知集{N:02d}"`) where `N` is the smallest positive integer whose
synthetic key is not already present in the current merged map (probed
upward, never overwriting); in particular Scenario C — fragments
{"01","02"} and {"00"} under one (title, directory, season) key — merges to
episodes {"01","02","未知集01"} with count 3. -/
theorem merge_zero_key_renamed (eps : List (Str × Str)) (fp : Str)
    (hnd : (akeys eps).Nodup) :
    mergeEpStep eps ("00".toList, fp) = ainsert eps (probeUnknown eps) fp ∧
    probeUnknown eps ∉ akeys eps ∧
    (∃ N, 1 ≤ N ∧ probeUnknown eps = fmtUnknown N ∧
      ∀ j, 1 ≤ j → j < N → fmtUnknown j ∈ akeys eps) ∧
    merge_same_season_series [(scA.pattern, scA), (scB.pattern, scB)] =
      [(scA.pattern,
        { scA with episodes := scA.episodes ++ [(fmtUnknown 1, "f3".toList)],
                   episode_count := 3 })] := by
  obtain ⟨h1, N, hN⟩ := probeUnknown_spec eps hnd
  refine ⟨?_, h1, ⟨N, hN⟩, by decide⟩
  show (if ("00".toList : Str) = "00".toList then ainsert eps (probeUnknown eps) fp
        else _) = _
  rw [if_pos rfl]

/-- **C7 (witness)** — The amended statement at the Scenario C base map
{"01","02"}: the "00" episode is inserted as `未知集01`, which is absent
from the base. -/
theorem merge_zero_key_renamed_witness :
    (akeys scA.episodes).Nodup ∧
    mergeEpStep scA.episodes ("00".toList, "f3".toList) =
      ainsert scA.episodes (probeUnknown scA.episodes) ("f3".toList) ∧
    probeUnknown scA.episodes = fmtUnknown 1 ∧
    fmtUnknown 1 = "未知集01".toList ∧
    probeUnknown scA.episodes ∉ akeys scA.episodes := by
  have h := merge_zero_key_renamed scA.episodes ("f3".toList) (by decide)
  exact ⟨by decide, h.1, by decide, by decide, h.2.1⟩
/-- `defaultdict` accumulation with a fresh key appends a singleton group
(helper). -/
theorem addToGroups_not_mem {K V : Type} [DecidableEq K]
    (gs : List (K × List V)) (k : K) (v : V) (h : k ∉ gs.map Prod.fst) :
    addToGroups gs k v = gs ++ [(k, [v])] := by
  induction gs with
  | nil => rfl
  | cons g rest ih =>
    have hne : g.1 ≠ k := fun hx => h (by simp [hx])
    have hr : k ∉ rest.map Prod.fst := fun hx => h (by simp [hx])
    simp [addToGroups, hne, ih hr]

/-- When all merge keys are pairwise distinct, the grouping fold produces
one singleton group per entry, in input order (helper). -/
theorem buildGroups_distinct (l : List (Str × SeriesInfo)) :
    ∀ (acc : List ((Str × Str × Nat) × List (Str × SeriesInfo))),
      (l.map (fun e => mergeKey e.2)).Nodup →
      (∀ e ∈ l, mergeKey e.2 ∉ acc.map Prod.fst) →
      l.foldl (fun gs e => addToGroups gs (mergeKey e.2) e) acc =
        acc ++ l.map (fun e => (mergeKey e.2, [e])) := by
  induction l with
  | nil => intro acc _ _; simp
  | cons e rest ih =>
    intro acc hnd hdisj
    rw [List.foldl_cons, addToGroups_not_mem acc _ e (hdisj e (List.mem_cons_self _ _))]
    rw [ih (acc ++ [(mergeKey e.2, [e])]) (List.nodup_cons.mp hnd).2 ?disj]
    · simp
    case disj =>
      intro x hx
      rw [List.map_append, List.mem_append]
      rintro (hmem | hmem)
      · exact hdisj x (List.mem_cons_of_mem _ hx) hmem
      · have hxk : mergeKey x.2 = mergeKey e.2 := by simpa using hmem
        have hmm : mergeKey e.2 ∈ rest.map (fun y => mergeKey y.2) := by
          rw [← hxk]
          exact List.mem_map_of_mem (fun y => mergeKey y.2) hx
        exact (List.nodup_cons.mp hnd).1 hmm

/-- Folding `processGroup` over singleton groups reproduces the entries in
order (helper). -/
theorem foldl_processGroup_singletons (l : List (Str × SeriesInfo)) :
    ∀ (acc : List (Str × SeriesInfo)),
      (l.map (fun e => (mergeKey e.2, [e]))).foldl processGroup acc = acc ++ l := by
  induction l with
  | nil => intro acc; simp
  | cons e rest ih =>
    intro acc
    rw [List.map_cons, List.foldl_cons]
    have hone : processGroup acc (mergeKey e.2, [e]) = acc ++ [e] := rfl
    rw [hone, ih]
    simp

/-! ### Claim C8 -/

/-- **C8** — `merge_same_season_series` is idempotent on already-merged
input: when each `(series name, directory, season-or-1)` key is held by
exactly one record (the mapped merge keys are pairwise distinct), the
function returns the input mapping unchanged — same keys, same records,
same order. -/
theorem merge_same_season_idempotent (si : List (Str × SeriesInfo))
    (h : (si.map (fun e => mergeKey e.2)).Nodup) :
    merge_same_season_series si = si := by
  unfold merge_same_season_series buildGroups
  rw [buildGroups_distinct si [] h (by simp)]
  simpa using foldl_processGroup_singletons si []

/-- **C8 (witness)** — A two-record input whose merge keys differ is
returned unchanged. -/
theorem merge_same_season_idempotent_witness :
    (([("pA".toList, scA), ("pC".toList, scC)].map (fun e => mergeKey e.2)).Nodup) ∧
    merge_same_season_series [("pA".toList, scA), ("pC".toList, scC)] =
      [("pA".toList, scA), ("pC".toList, scC)] :=
  ⟨by decide, merge_same_season_idempotent _ (by decide)⟩
/-- `defaultdict` accumulation puts the added value into the list at its key
(helper). -/
theorem addToGroups_mem_added {K V : Type} [DecidableEq K]
    (gs : List (K × List V)) (k : K) (v : V) :
    ∃ l, (k, l) ∈ addToGroups gs k v ∧ v ∈ l := by
  induction gs with
  | nil => exact ⟨[v], by simp [addToGroups], by simp⟩
  | cons g rest ih =>
    by_cases hg : g.1 = k
    · refine ⟨g.2 ++ [v], ?_, by simp⟩
      simp [addToGroups, hg]
    · rcases ih with ⟨l, hl, hv⟩
      refine ⟨l, ?_, hv⟩
      simp only [addToGroups, if_neg hg, List.mem_cons]
      exact Or.inr hl

/-- `defaultdict` accumulation keeps existing members reachable under their
key (helper). -/
theorem addToGroups_mem_mono {K V : Type} [DecidableEq K]
    (gs : List (K × List V)) (k : K) (v : V) (k' : K) (l' : List V) (x : V)
    (h : (k', l') ∈ gs) (hx : x ∈ l') :
    ∃ l2, (k', l2) ∈ addToGroups gs k v ∧ x ∈ l2 := by
  induction gs with
  | nil => cases h
  | cons g rest ih =>
    rcases List.mem_cons.mp h with heq | hmem
    · by_cases hg : g.1 = k
      · have h1 : k' = g.1 := by rw [← heq]
        have h2 : l' = g.2 := by rw [← heq]
        refine ⟨g.2 ++ [v], ?_, List.mem_append_left _ (h2 ▸ hx)⟩
        simp only [addToGroups, if_pos hg, List.mem_cons]
        left
        rw [h1]
      · refine ⟨l', ?_, hx⟩
        simp only [addToGroups, if_neg hg, List.mem_cons]
        exact Or.inl heq
    · by_cases hg : g.1 = k
      · refine ⟨l', ?_, hx⟩
        simp only [addToGroups, if_pos hg, List.mem_cons]
        exact Or.inr hmem
      · rcases ih hmem with ⟨l2, h1, h2⟩
        refine ⟨l2, ?_, h2⟩
        simp only [addToGroups, if_neg hg, List.mem_cons]
        exact Or.inr h1

/-- Key set of a `defaultdict` accumulation step (helper). -/
theorem addToGroups_keys {K V : Type} [DecidableEq K]
    (gs : List (K × List V)) (k : K) (v : V) :
    (addToGroups gs k v).map Prod.fst =
      if k ∈ gs.map Prod.fst then gs.map Prod.fst else gs.map Prod.fst ++ [k] := by
  induction gs with
  | nil => simp [addToGroups]
  | cons g rest ih =>
    by_cases hg : g.1 = k
    · simp [addToGroups, hg]
    · simp only [addToGroups, if_neg hg, List.map_cons, ih]
      by_cases hk : k ∈ rest.map Prod.fst
      · rw [if_pos hk, if_pos (by simp [hk])]
      · rw [if_neg hk, if_neg ?hc]
        · simp
        case hc =>
          simp only [List.map_cons, List.mem_cons]
          rintro (h | h)
          · exact hg h.symm
          · exact hk h

/-- `defaultdict` accumulation keeps group keys pairwise distinct
(helper). -/
theorem addToGroups_keys_nodup {K V : Type} [DecidableEq K]
    (gs : List (K × List V)) (k : K) (v : V) (h : (gs.map Prod.fst).Nodup) :
    ((addToGroups gs k v).map Prod.fst).Nodup := by
  rw [addToGroups_keys]
  by_cases hk : k ∈ gs.map Prod.fst
  · rwa [if_pos hk]
  · rw [if_neg hk]
    rw [List.nodup_append]
    refine ⟨h, List.nodup_singleton _, ?_⟩
    intro a ha hb
    rw [List.mem_singleton] at hb
    subst hb
    exact hk ha

/-- The raw grouping of `group_series` has pairwise-distinct keys
(helper). -/
theorem rawGroups_keys_nodup (ps : List NumPattern) (vids : List Str) :
    ((rawGroups ps vids).map Prod.fst).Nodup := by
  unfold rawGroups
  suffices h : ∀ (vs : List Str) (acc : List (Str × List (Nat × Str))),
      (acc.map Prod.fst).Nodup →
      ((vs.foldl (fun gs video =>
        let r := extract_series_info ps video
        addToGroups gs r.1 (r.2, video)) acc).map Prod.fst).Nodup by
    exact h vids [] (by simp)
  intro vs
  induction vs with
  | nil => intro acc h; exact h
  | cons v vs ih =>
    intro acc h
    rw [List.foldl_cons]
    exact ih _ (addToGroups_keys_nodup _ _ _ h)

/-- Every scanned file reaches the raw group of its extraction key
(helper). -/
theorem rawGroups_mem (ps : List NumPattern) (vids : List Str) (f key : Str) (ep : Nat)
    (hf : f ∈ vids) (hex : extract_series_info ps f = (key, ep)) :
    ∃ l, (key, l) ∈ rawGroups ps vids ∧ (ep, f) ∈ l := by
  unfold rawGroups
  suffices aux : ∀ (vs : List Str) (acc : List (Str × List (Nat × Str))),
      ((∃ l, (key, l) ∈ acc ∧ (ep, f) ∈ l) ∨ f ∈ vs) →
      ∃ l, (key, l) ∈ vs.foldl (fun gs video =>
        let r := extract_series_info ps video
        addToGroups gs r.1 (r.2, video)) acc ∧ (ep, f) ∈ l by
    exact aux vids [] (Or.inr hf)
  intro vs
  induction vs with
  | nil =>
    intro acc h
    rcases h with h | h
    · exact h
    · cases h
  | cons v vs ih =>
    intro acc h
    rw [List.foldl_cons]
    apply ih
    rcases h with ⟨l, hl, hm⟩ | hmem
    · exact Or.inl (addToGroups_mem_mono acc _ _ key l (ep, f) hl hm)
    · rcases List.mem_cons.mp hmem with heqv | hvs
      · left
        subst heqv
        have hstep :
            (let r := extract_series_info ps f
             addToGroups acc r.1 (r.2, f)) = addToGroups acc key (ep, f) := by
          rw [hex]
        rw [hstep]
        exact addToGroups_mem_added acc key (ep, f)
      · exact Or.inr hvs

/-- Under pairwise-distinct keys, a key determines its value (helper). -/
theorem mem_unique_of_keys_nodup {K V : Type} (m : List (K × V))
    (hnd : (m.map Prod.fst).Nodup) (k : K) (a b : V)
    (ha : (k, a) ∈ m) (hb : (k, b) ∈ m) : a = b := by
  induction m with
  | nil => cases ha
  | cons e rest ih =>
    have hnd2 : (e.1 :: rest.map Prod.fst).Nodup := by simpa using hnd
    have hh := List.nodup_cons.mp hnd2
    rcases List.mem_cons.mp ha with h1 | h1 <;> rcases List.mem_cons.mp hb with h2 | h2
    · have : (k, a) = (k, b) := h1.trans h2.symm
      exact (Prod.mk.injEq _ _ _ _ ▸ this).2
    · exfalso
      apply hh.1
      have hk : e.1 = k := by rw [← h1]
      rw [hk]
      exact List.mem_map_of_mem Prod.fst h2
    · exfalso
      apply hh.1
      have hk : e.1 = k := by rw [← h2]
      rw [hk]
      exact List.mem_map_of_mem Prod.fst h1
    · exact ih hh.2 h1 h2

/-- Keys already in the episode map survive the episode-map fold
(helper). -/
theorem fold_ainsert_key_preserved (videos : List (Nat × Str)) :
    ∀ (acc : List (Str × Str)) (k : Str), k ∈ akeys acc →
      k ∈ akeys (videos.foldl (fun m x => ainsert m (fmt02 x.1) x.2) acc) := by
  induction videos with
  | nil => intro acc k h; exact h
  | cons v vs ih =>
    intro acc k h
    rw [List.foldl_cons]
    exact ih _ k (mem_akeys_ainsert _ _ _ _ h)

/-- Every group member's formatted episode number is a key of the built
episode map (helper). -/
theorem fold_ainsert_key_mem (videos : List (Nat × Str)) :
    ∀ (acc : List (Str × Str)) (e : Nat × Str), e ∈ videos →
      fmt02 e.1 ∈ akeys (videos.foldl (fun m x => ainsert m (fmt02 x.1) x.2) acc) := by
  induction videos with
  | nil => intro _ _ h; cases h
  | cons v vs ih =>
    intro acc e he
    rw [List.foldl_cons]
    rcases List.mem_cons.mp he with heq | hmem
    · subst heq
      exact fold_ainsert_key_preserved vs _ _ (self_mem_akeys_ainsert _ _ _)
    · exact ih _ e hmem

/-! ### Claim C9 -/

/-- **C9** — When no episode pattern matches a file's basename, extraction
does not fail: `extract_series_info` returns episode 0 with the unmodified
path as grouping key, the file still participates in grouping under that
key, and the `SeriesInfo` analysed for that key carries the episode-map key
exactly "00" (`f"{0:02d}"`). -/
theorem no_match_file_participates (ps : List NumPattern) (cfg : Config)
    (vids : List Str) (f : Str)
    (hnone : ∀ p ∈ ps, p.search (basename f) = none) (hf : f ∈ vids) :
    extract_series_info ps f = (f, 0) ∧
    (∃ l, (f, l) ∈ group_series ps vids ∧ (0, f) ∈ l) ∧
    fmt02 0 = "00".toList ∧
    (∀ info, (f, info) ∈ analyze_series cfg (group_series ps vids) →
      "00".toList ∈ akeys info.episodes) := by
  have hex : extract_series_info ps f = (f, 0) := by
    induction ps with
    | nil => rfl
    | cons p rest ih =>
      unfold extract_series_info
      rw [hnone p (List.mem_cons_self _ _)]
      exact ih (fun q hq => hnone q (List.mem_cons_of_mem _ hq))
  rcases rawGroups_mem ps vids f f 0 hf hex with ⟨l0, hl0, hm0⟩
  have hgmem : (f, List.insertionSort epLe l0) ∈ group_series ps vids :=
    List.mem_map.mpr ⟨(f, l0), hl0, rfl⟩
  have hsortmem : (0, f) ∈ List.insertionSort epLe l0 :=
    ((List.perm_insertionSort epLe l0).mem_iff).mpr hm0
  refine ⟨hex, ⟨_, hgmem, hsortmem⟩, rfl, ?_⟩
  intro info hinfo
  rcases List.mem_map.mp hinfo with ⟨g, hg, heq⟩
  have hk : g.1 = f := congrArg Prod.fst heq
  have hi : analyzeOne cfg g.1 g.2 = info := congrArg Prod.snd heq
  have hnd : ((group_series ps vids).map Prod.fst).Nodup := by
    unfold group_series
    rw [List.map_map]
    simpa [Function.comp] using rawGroups_keys_nodup ps vids
  have hgpair : (f, g.2) ∈ group_series ps vids := by
    have : (g.1, g.2) ∈ group_series ps vids := hg
    rwa [hk] at this
  have hgU : g.2 = List.insertionSort epLe l0 :=
    mem_unique_of_keys_nodup _ hnd f g.2 _ hgpair hgmem
  rw [← hi]
  have heps : (analyzeOne cfg g.1 g.2).episodes =
      g.2.foldl (fun m e => ainsert m (fmt02 e.1) e.2) [] := rfl
  rw [heps, hgU]
  exact fold_ainsert_key_mem (List.insertionSort epLe l0) [] (0, f) hsortmem

/-- **C9 (witness)** — The file `noep.mkv` matches no pattern of `[pat1]`:
it is grouped under its own path with episode 0 and analysed with episode
key "00". -/
theorem no_match_file_participates_witness :
    (∀ p ∈ [pat1], p.search (basename ("noep.mkv".toList)) = none) ∧
    extract_series_info [pat1] ("noep.mkv".toList) = ("noep.mkv".toList, 0) ∧
    (∃ l, ("noep.mkv".toList, l) ∈ group_series [pat1] ["noep.mkv".toList] ∧
      (0, "noep.mkv".toList) ∈ l) ∧
    (∀ info, ("noep.mkv".toList, info) ∈
        analyze_series cfg1 (group_series [pat1] ["noep.mkv".toList]) →
      "00".toList ∈ akeys info.episodes) := by
  have h := no_match_file_participates [pat1] cfg1 ["noep.mkv".toList] ("noep.mkv".toList)
    (by decide) (by decide)
  exact ⟨by decide, h.1, h.2.1, h.2.2.2⟩
